import Mathlib

/-!
Shallow embedding of the Wishbone shared-bus fabric from
`migen/bus/wishbone.py` (classes `Arbiter`, `Decoder`, `InterconnectShared`),
together with proofs of the specification's claims about it.

Machine signals are modelled as `Nat` (with explicit `% 2^w` where the
hardware masks to a width) and single-bit signals as `Bool`.  The
combinational logic of one clock cycle becomes a pure step function;
the one register of the decoder (`_slave_sel_r` in registered mode)
becomes explicit state passed between steps.
-/

/-- The initiator-to-target ("master to slave") fields of the Wishbone port
schema `_desc`: address (32), write data (32), byte select (4), cycle valid
(1), strobe (1), write enable (1), cycle type (3), burst type extension (2). -/
structure M2S where
  adr : Nat
  dat : Nat
  sel : Nat
  cyc : Bool
  stb : Bool
  we : Bool
  cti : Nat
  bte : Nat
  deriving DecidableEq, Repr

/-- The target-to-initiator ("slave to master") fields of `_desc`:
read data (32), acknowledge (1), error (1). -/
structure S2M where
  dat : Nat
  ack : Bool
  err : Bool
  deriving DecidableEq, Repr

/-- A migen `Constant` with an explicit bit width (`structure.Constant`
carrying a `BV`): the decoder's address patterns. -/
structure BVConst where
  width : Nat
  value : Nat
  deriving DecidableEq, Repr

/-- An address-table entry as passed to `Decoder.__init__`: either a plain
Python integer or an already-width-annotated `Constant`. -/
inductive Pattern where
  | int (n : Nat)
  | const (c : BVConst)
  deriving DecidableEq, Repr

/-- Binary length by repeated halving, with a structural fuel argument so
that it evaluates by kernel reduction (the fuel `n` always suffices). -/
def bitsForAux : Nat → Nat → Nat
  | 0, _ => 0
  | fuel + 1, n => if n = 0 then 0 else bitsForAux fuel (n / 2) + 1

/-- Modelled from the spec: `bits_for` (`migen.fhdl.structure`, not under
`src/`) — the number of bits needed to represent a nonnegative integer
(one bit for zero). -/
def bitsFor (n : Nat) : Nat :=
  if n = 0 then 1 else bitsForAux n n

/-- Modelled from the spec: `bits_for` applied to a table entry — for an
integer, the bits needed for its value; for a `Constant`, its declared
width. -/
def bitsForPattern (p : Pattern) : Nat :=
  match p with
  | .int n => bitsFor n
  | .const c => c.width

/-- The maximum `bits_for` width over an address table
(`maxbits = max([bits_for(addr) for addr in addresses])`). -/
def maxbitsOf (ps : List Pattern) : Nat :=
  (ps.map bitsForPattern).foldl Nat.max 0

/-- `mkconst` from `Decoder.__init__`: a plain integer is widened to a
`Constant` of width `maxbits`; a `Constant` is kept as given. -/
def mkconst (maxbits : Nat) (p : Pattern) : BVConst :=
  match p with
  | .int n => ⟨maxbits, n⟩
  | .const c => c

/-- The configuration a constructed `Decoder` holds: the resolved address
constants, the decode offset, and the registered-mode flag. -/
structure DecoderConfig where
  addresses : List BVConst
  offset : Nat
  register : Bool
  deriving DecidableEq, Repr

/-- `Decoder.__init__`: resolves the address table (widening integer
patterns to `maxbits`) and creates the select signals.  It performs no
overlap validation; the only way it can fail is `max` over an empty
address list (Python `ValueError`), modelled as `none`. -/
def decoderInit (patterns : List Pattern) (offset : Nat) (register : Bool) :
    Option DecoderConfig :=
  match patterns with
  | [] => none
  | _ =>
    some { addresses := patterns.map (mkconst (maxbitsOf patterns))
           offset := offset
           register := register }

/-- One address comparator of `Decoder.get_fragment`
(`self.master.adr_o[hi-addr.bv.width:hi] == addr`): the address bits from
position `hi - width` up to `hi` equal the pattern's value. -/
def entryMatch (hi : Nat) (a : BVConst) (adr : Nat) : Bool :=
  decide ((adr / 2 ^ (hi - a.width)) % 2 ^ a.width = a.value)

/-- The combinational slave-select vector `_slave_sel`: one comparator bit
per table entry, decoded against bits `[32 - offset - width, 32 - offset)`
of the master address. -/
def slaveSel (cfg : DecoderConfig) (adr : Nat) : List Bool :=
  cfg.addresses.map (fun a => entryMatch (32 - cfg.offset) a adr)

/-- The one-hot AND-OR read-data multiplexer of `Decoder.get_fragment`:
`datav = datav | (Replicate(sel_r[i], 32) & slave.dat_o)` folded over the
slaves, starting from the 32-bit constant 0. -/
def oneHotMux (selr : List Bool) (dats : List Nat) : Nat :=
  (List.zipWith (fun s d => if s then d % 2 ^ 32 else 0) selr dats).foldl
    (fun a b => a ||| b) 0

/-- The combinational outputs of one decoder evaluation. -/
structure DecoderOut where
  slaveSelOut : List Bool
  slaveSelR : List Bool
  slaveInputs : List M2S
  masterAck : Bool
  masterErr : Bool
  masterDat : Nat
  deriving DecidableEq, Repr

/-- One cycle of `Decoder.get_fragment`.  `st` is the value held by the
`_slave_sel_r` register at the start of the cycle (meaningful only in
registered mode).  Combinationally: the select vector is decoded from the
master address; each slave receives the master's forward fields with
`cyc_i = cyc_o AND _slave_sel[i]`; the master's `ack_i`/`err_i` are the OR
over all slave `ack_o`/`err_o`; `dat_i` is the one-hot mux of the slave
`dat_o` gated by `_slave_sel_r`.  In registered mode `_slave_sel_r` reads
the register and the register latches `_slave_sel` for the next cycle;
otherwise `_slave_sel_r` is combinationally `_slave_sel`. -/
def decoderStep (cfg : DecoderConfig) (st : List Bool) (m : M2S)
    (slavesIn : List S2M) : DecoderOut × List Bool :=
  let sel := slaveSel cfg m.adr
  let selr := if cfg.register then st else sel
  let stNext := if cfg.register then sel else st
  ({ slaveSelOut := sel
     slaveSelR := selr
     slaveInputs := sel.map (fun s => { m with cyc := m.cyc && s })
     masterAck := (slavesIn.map S2M.ack).foldl (fun a b => a || b) false
     masterErr := (slavesIn.map S2M.err).foldl (fun a b => a || b) false
     masterDat := oneHotMux selr (slavesIn.map S2M.dat) },
   stNext)

/-- Modelled from the spec: the forward multiplexer of
`Arbiter.get_fragment` (`multimux.multimux`, `migen.corelogic.multimux`,
not under `src/`) — every initiator-to-target field of the shared trunk
takes the granted initiator's value. -/
def arbiterTrunk {n : Nat} (masters : Fin n → M2S) (grant : Fin n) : M2S :=
  masters grant

/-- The slave-to-master back-routing of `Arbiter.get_fragment`: read data
is copied to every initiator unconditionally; `ack_i` and `err_i` are
delivered gated by `grant == i`. -/
def arbiterMasterResp {n : Nat} (shared : S2M) (grant : Fin n) (i : Fin n) :
    S2M :=
  { dat := shared.dat
    ack := shared.ack && decide (grant = i)
    err := shared.err && decide (grant = i) }

/-- The request wiring of `Arbiter.get_fragment`: the round-robin request
vector is the concatenation of the initiators' `cyc_o` bits. -/
def arbiterRequest {n : Nat} (masters : Fin n → M2S) : Fin n → Bool :=
  fun i => (masters i).cyc

/-- Modelled from the spec: the round-robin selector
(`roundrobin.Inst`, `migen.corelogic.roundrobin`, not under `src/`) —
starting immediately after the previous grant and wrapping, the first set
request bit becomes the new grant; if no bit is set the grant pointer is
unchanged. -/
def rrScan {n : Nat} (req : Fin n → Bool) (prev : Fin n) : Fin n :=
  have hn : 0 < n := prev.pos
  match (List.range n).find?
      (fun k => req ⟨(prev.val + k + 1) % n, Nat.mod_lt _ hn⟩) with
  | some k => ⟨(prev.val + k + 1) % n, Nat.mod_lt _ hn⟩
  | none => prev

/-- The grant trajectory: the grant register over time, starting from
`g0` and advancing by the round-robin scan on each cycle's request
vector. -/
def grantSeq {n : Nat} (req : Nat → Fin n → Bool) (g0 : Fin n) :
    Nat → Fin n
  | 0 => g0
  | t + 1 => rrScan (req t) (grantSeq req g0 t)

/-- At most one entry of a bit-vector (as a list of `Bool`) is `true`. -/
def AtMostOneTrue (l : List Bool) : Prop :=
  ∀ i j : Fin l.length, l.get i = true → l.get j = true → i = j

/-- The configuration invariant on a decoder table: no 32-bit address is
matched by two distinct entries. -/
def Nonoverlapping (cfg : DecoderConfig) : Prop :=
  ∀ i j : Fin cfg.addresses.length, i ≠ j → ∀ adr, adr < 2 ^ 32 →
    ¬(entryMatch (32 - cfg.offset) (cfg.addresses.get i) adr = true ∧
      entryMatch (32 - cfg.offset) (cfg.addresses.get j) adr = true)

theorem slaveSel_length (cfg : DecoderConfig) (adr : Nat) :
    (slaveSel cfg adr).length = cfg.addresses.length := by
  simp [slaveSel]

theorem slaveSel_get (cfg : DecoderConfig) (adr : Nat) (i : Nat)
    (h : i < (slaveSel cfg adr).length) :
    (slaveSel cfg adr).get ⟨i, h⟩ =
      entryMatch (32 - cfg.offset)
        (cfg.addresses.get ⟨i, (slaveSel_length cfg adr) ▸ h⟩) adr := by
  simp [slaveSel, List.get_eq_getElem, List.getElem_map]

theorem slaveSel_atMostOne (cfg : DecoderConfig) (adr : Nat)
    (hnov : Nonoverlapping cfg) (hadr : adr < 2 ^ 32) :
    AtMostOneTrue (slaveSel cfg adr) := by
  intro i j hi hj
  by_contra hne
  have hi2 := hi
  have hj2 := hj
  rw [slaveSel_get cfg adr i.val i.isLt] at hi2
  rw [slaveSel_get cfg adr j.val j.isLt] at hj2
  refine hnov ⟨i.val, (slaveSel_length cfg adr) ▸ i.isLt⟩
      ⟨j.val, (slaveSel_length cfg adr) ▸ j.isLt⟩ ?_ adr hadr ⟨hi2, hj2⟩
  intro hv
  rw [Fin.mk.injEq] at hv
  exact hne (Fin.ext hv)

/-- C1: if the decoder's address-map patterns are pairwise non-overlapping
(the required configuration invariant), then in every cycle with a 32-bit
master address at most one bit of `_slave_sel` is set, at most one bit of
`_slave_sel_r` is set (in both combinational and registered mode, the
register holding an at-most-one-hot value), and the value latched into the
register for the next cycle is again at most one-hot. -/
theorem decoder_slave_sel_mutual_exclusion (cfg : DecoderConfig)
    (st : List Bool) (m : M2S) (slavesIn : List S2M)
    (hnov : Nonoverlapping cfg) (hadr : m.adr < 2 ^ 32)
    (hst : AtMostOneTrue st) :
    AtMostOneTrue ((decoderStep cfg st m slavesIn).1.slaveSelOut) ∧
    AtMostOneTrue ((decoderStep cfg st m slavesIn).1.slaveSelR) ∧
    AtMostOneTrue ((decoderStep cfg st m slavesIn).2) := by
  have hsel := slaveSel_atMostOne cfg m.adr hnov hadr
  refine ⟨?_, ?_, ?_⟩
  · simpa [decoderStep] using hsel
  · cases hr : cfg.register
    · simpa [decoderStep, hr] using hsel
    · simpa [decoderStep, hr] using hst
  · cases hr : cfg.register
    · simpa [decoderStep, hr] using hst
    · simpa [decoderStep, hr] using hsel

/-- A concrete two-entry decoder table: one address bit decoded, patterns
0 and 1 (the spec's concrete scenario of §8), combinational mode. -/
def cfgW : DecoderConfig := ⟨[⟨1, 0⟩, ⟨1, 1⟩], 0, false⟩

/-- The same table in registered mode. -/
def cfgWreg : DecoderConfig := ⟨[⟨1, 0⟩, ⟨1, 1⟩], 0, true⟩

/-- A concrete master drive: address `0x00000010`, cycle valid. -/
def mW : M2S := ⟨0x00000010, 0, 0, true, true, false, 0, 0⟩

theorem cfgW_nonoverlapping : Nonoverlapping cfgW := by
  intro i j hne adr hadr h
  obtain ⟨h1, h2⟩ := h
  fin_cases i <;> fin_cases j <;> simp_all [entryMatch, cfgW]

theorem decoder_slave_sel_mutual_exclusion_witness :
    AtMostOneTrue ((decoderStep cfgW [] mW []).1.slaveSelOut) ∧
    AtMostOneTrue ((decoderStep cfgW [] mW []).1.slaveSelR) ∧
    AtMostOneTrue ((decoderStep cfgW [] mW []).2) :=
  decoder_slave_sel_mutual_exclusion cfgW [] mW []
    cfgW_nonoverlapping (by decide) (fun i => Fin.elim0 i)

/-- C2: an ungranted initiator's acknowledge and error are inactive even
when the trunk asserts them; the granted initiator receives the trunk's
acknowledge and error unmodified. -/
theorem arbiter_response_isolation {n : Nat} (shared : S2M)
    (grant i : Fin n) :
    (i ≠ grant →
      (arbiterMasterResp shared grant i).ack = false ∧
      (arbiterMasterResp shared grant i).err = false) ∧
    (arbiterMasterResp shared grant grant).ack = shared.ack ∧
    (arbiterMasterResp shared grant grant).err = shared.err := by
  refine ⟨fun hne => ?_, ?_, ?_⟩
  · have hd : decide (grant = i) = false := by
      exact decide_eq_false (fun h => hne h.symm)
    simp [arbiterMasterResp, hd]
  · simp [arbiterMasterResp]
  · simp [arbiterMasterResp]

theorem arbiter_response_isolation_witness :
    (arbiterMasterResp ⟨5, true, true⟩ (0 : Fin 2) 1).ack = false ∧
    (arbiterMasterResp ⟨5, true, true⟩ (0 : Fin 2) 1).err = false ∧
    (arbiterMasterResp ⟨5, true, true⟩ (0 : Fin 2) 0).ack = true :=
  ⟨((arbiter_response_isolation ⟨5, true, true⟩ 0 1).1 (by decide)).1,
   ((arbiter_response_isolation ⟨5, true, true⟩ 0 1).1 (by decide)).2,
   (arbiter_response_isolation ⟨5, true, true⟩ 0 0).2.1⟩

theorem foldl_or_falses (l : List Bool) (a : Bool)
    (h : ∀ x ∈ l, x = false) :
    l.foldl (fun a b => a || b) a = a := by
  induction l generalizing a with
  | nil => rfl
  | cons b tl ih =>
    have hb : b = false := h b (by simp)
    have htl : ∀ x ∈ tl, x = false := fun x hx => h x (by simp [hx])
    simp [List.foldl, hb, ih a htl]

theorem foldl_or_single (l : List Bool) (t : Nat) (ht : t < l.length)
    (h0 : ∀ j (hj : j < l.length), j ≠ t → l.get ⟨j, hj⟩ = false) :
    l.foldl (fun a b => a || b) false = l.get ⟨t, ht⟩ := by
  induction l generalizing t with
  | nil => exact absurd ht (by simp)
  | cons b tl ih =>
    cases t with
    | zero =>
      have htl : ∀ x ∈ tl, x = false := by
        intro x hx
        obtain ⟨⟨j, hj⟩, hg⟩ := List.mem_iff_get.mp hx
        rw [← hg]
        have := h0 (j + 1) (by simpa using hj) (by omega)
        simpa using this
      simpa [List.foldl] using foldl_or_falses tl b htl
    | succ t2 =>
      have hb : b = false := h0 0 (by simp) (by omega)
      have h02 : ∀ j (hj : j < tl.length), j ≠ t2 → tl.get ⟨j, hj⟩ = false := by
        intro j hj hne
        have := h0 (j + 1) (by simpa using hj) (by omega)
        simpa using this
      have := ih t2 (by simpa using ht) h02
      simpa [List.foldl, hb] using this

theorem foldl_lor_zeros (l : List Nat) (a : Nat)
    (h : ∀ x ∈ l, x = 0) :
    l.foldl (fun a b => a ||| b) a = a := by
  induction l generalizing a with
  | nil => rfl
  | cons b tl ih =>
    have hb : b = 0 := h b (by simp)
    have htl : ∀ x ∈ tl, x = 0 := fun x hx => h x (by simp [hx])
    simp [List.foldl, hb, ih a htl]

theorem foldl_lor_single (l : List Nat) (t : Nat) (ht : t < l.length)
    (h0 : ∀ j (hj : j < l.length), j ≠ t → l.get ⟨j, hj⟩ = 0) :
    l.foldl (fun a b => a ||| b) 0 = l.get ⟨t, ht⟩ := by
  induction l generalizing t with
  | nil => exact absurd ht (by simp)
  | cons b tl ih =>
    cases t with
    | zero =>
      have htl : ∀ x ∈ tl, x = 0 := by
        intro x hx
        obtain ⟨⟨j, hj⟩, hg⟩ := List.mem_iff_get.mp hx
        rw [← hg]
        have := h0 (j + 1) (by simpa using hj) (by omega)
        simpa using this
      simpa [List.foldl] using foldl_lor_zeros tl (0 ||| b) htl
    | succ t2 =>
      have hb : b = 0 := h0 0 (by simp) (by omega)
      have h02 : ∀ j (hj : j < tl.length), j ≠ t2 → tl.get ⟨j, hj⟩ = 0 := by
        intro j hj hne
        have := h0 (j + 1) (by simpa using hj) (by omega)
        simpa using this
      have := ih t2 (by simpa using ht) h02
      simpa [List.foldl, hb] using this

/-- The cycle-valid input delivered to target `i` by one decoder
evaluation (`slave[1].cyc_i`), read out of the slave input list; `false`
past the end of the table. -/
def slaveCycIn (cfg : DecoderConfig) (st : List Bool) (m : M2S)
    (slavesIn : List S2M) (i : Nat) : Bool :=
  (((decoderStep cfg st m slavesIn).1.slaveInputs).map M2S.cyc).getD i false

theorem slaveCycIn_eq (cfg : DecoderConfig) (st : List Bool) (m : M2S)
    (slavesIn : List S2M) (i : Nat) :
    slaveCycIn cfg st m slavesIn i =
      (m.cyc && (slaveSel cfg m.adr).getD i false) := by
  simp only [slaveCycIn, decoderStep, List.map_map]
  rw [List.getD_eq_getElem?_getD, List.getD_eq_getElem?_getD,
    List.getElem?_map]
  cases (slaveSel cfg m.adr)[i]? <;> simp

/-- C6: the shared master's acknowledge (resp. error) is the OR over all
targets of that target's acknowledge (resp. error); when the select is
one-hot at `t` and no target asserts ack/err while its cycle-valid input
is low, the OR equals target `t`'s ack (resp. err). -/
theorem decoder_response_or_reduction (cfg : DecoderConfig) (st : List Bool)
    (m : M2S) (slavesIn : List S2M) :
    ((decoderStep cfg st m slavesIn).1.masterAck =
      (slavesIn.map S2M.ack).foldl (fun a b => a || b) false) ∧
    ((decoderStep cfg st m slavesIn).1.masterErr =
      (slavesIn.map S2M.err).foldl (fun a b => a || b) false) ∧
    (∀ t (ht : t < slavesIn.length),
      slavesIn.length = cfg.addresses.length →
      (slaveSel cfg m.adr).getD t false = true →
      (∀ j, j < cfg.addresses.length → j ≠ t →
        (slaveSel cfg m.adr).getD j false = false) →
      (∀ j (hj : j < slavesIn.length),
        ((slavesIn.get ⟨j, hj⟩).ack = true →
          slaveCycIn cfg st m slavesIn j = true) ∧
        ((slavesIn.get ⟨j, hj⟩).err = true →
          slaveCycIn cfg st m slavesIn j = true)) →
      (decoderStep cfg st m slavesIn).1.masterAck =
        (slavesIn.get ⟨t, ht⟩).ack ∧
      (decoderStep cfg st m slavesIn).1.masterErr =
        (slavesIn.get ⟨t, ht⟩).err) := by
  refine ⟨by simp [decoderStep], by simp [decoderStep], ?_⟩
  intro t ht hlen hsel hothers hprot
  have hzero : ∀ j (hj : j < slavesIn.length), j ≠ t →
      (slavesIn.get ⟨j, hj⟩).ack = false ∧
      (slavesIn.get ⟨j, hj⟩).err = false := by
    intro j hj hne
    have hcj : slaveCycIn cfg st m slavesIn j = false := by
      rw [slaveCycIn_eq]
      rw [hothers j (by omega) hne]
      simp
    constructor
    · by_contra hc
      have hat : (slavesIn.get ⟨j, hj⟩).ack = true := by
        simpa using hc
      have := (hprot j hj).1 hat
      simp [this] at hcj
    · by_contra hc
      have het : (slavesIn.get ⟨j, hj⟩).err = true := by
        simpa using hc
      have := (hprot j hj).2 het
      simp [this] at hcj
  constructor
  · have hsingle := foldl_or_single (slavesIn.map S2M.ack) t
      (by simpa using ht) (by
        intro j hj hne
        have hj2 : j < slavesIn.length := by simpa using hj
        have := (hzero j hj2 hne).1
        simpa [List.get_eq_getElem, List.getElem_map] using this)
    rw [show ((decoderStep cfg st m slavesIn).1.masterAck) =
      (slavesIn.map S2M.ack).foldl (fun a b => a || b) false from by
        simp [decoderStep]]
    rw [hsingle]
    simp [List.get_eq_getElem, List.getElem_map]
  · have hsingle := foldl_or_single (slavesIn.map S2M.err) t
      (by simpa using ht) (by
        intro j hj hne
        have hj2 : j < slavesIn.length := by simpa using hj
        have := (hzero j hj2 hne).2
        simpa [List.get_eq_getElem, List.getElem_map] using this)
    rw [show ((decoderStep cfg st m slavesIn).1.masterErr) =
      (slavesIn.map S2M.err).foldl (fun a b => a || b) false from by
        simp [decoderStep]]
    rw [hsingle]
    simp [List.get_eq_getElem, List.getElem_map]

theorem slaveSel_getD (cfg : DecoderConfig) (adr : Nat) (i : Nat)
    (hi : i < cfg.addresses.length) :
    (slaveSel cfg adr).getD i false =
      entryMatch (32 - cfg.offset) (cfg.addresses.get ⟨i, hi⟩) adr := by
  rw [List.getD_eq_getElem?_getD,
    List.getElem?_eq_getElem (by simpa [slaveSel] using hi)]
  simp [slaveSel, List.getElem_map, List.get_eq_getElem]

theorem slaveSel_getD_oob (cfg : DecoderConfig) (adr : Nat) (i : Nat)
    (hi : cfg.addresses.length ≤ i) :
    (slaveSel cfg adr).getD i false = false := by
  rw [List.getD_eq_getElem?_getD,
    List.getElem?_eq_none (by simpa [slaveSel] using hi)]
  rfl

/-- A concrete response drive for witnesses: target 0 acknowledges with
read data `0xAB`, target 1 is quiet. -/
def slWit : List S2M := [⟨0xAB, true, false⟩, ⟨0, false, false⟩]

theorem decoder_response_or_reduction_witness :
    (decoderStep cfgW [] mW slWit).1.masterAck = true ∧
    (decoderStep cfgW [] mW slWit).1.masterErr = false :=
  have h := (decoder_response_or_reduction cfgW [] mW slWit).2.2 0 (by decide)
    (by decide) (by decide) (by decide) (by decide)
  ⟨h.1, h.2⟩

/-- C3: if the master address matches exactly one configured pattern (its
high bits from position `32 - offset - width` up to `32 - offset` equal
that pattern), that entry's target receives cycle-valid exactly when the
master's cycle-valid is asserted; if the address matches no pattern, no
target's cycle-valid input is asserted. -/
theorem decoder_decode_correctness (cfg : DecoderConfig) (st : List Bool)
    (m : M2S) (slavesIn : List S2M) :
    (∀ i (hi : i < cfg.addresses.length),
      entryMatch (32 - cfg.offset) (cfg.addresses.get ⟨i, hi⟩) m.adr = true →
      (∀ j (hj : j < cfg.addresses.length), j ≠ i →
        entryMatch (32 - cfg.offset) (cfg.addresses.get ⟨j, hj⟩) m.adr
          = false) →
      (slaveCycIn cfg st m slavesIn i = true ↔ m.cyc = true)) ∧
    ((∀ j (hj : j < cfg.addresses.length),
        entryMatch (32 - cfg.offset) (cfg.addresses.get ⟨j, hj⟩) m.adr
          = false) →
      ∀ j, slaveCycIn cfg st m slavesIn j = false) := by
  constructor
  · intro i hi hmatch _
    rw [slaveCycIn_eq, slaveSel_getD cfg m.adr i hi, hmatch]
    simp
  · intro hnone j
    rw [slaveCycIn_eq]
    rcases Nat.lt_or_ge j cfg.addresses.length with hj | hj
    · rw [slaveSel_getD cfg m.adr j hj, hnone j hj]
      simp
    · rw [slaveSel_getD_oob cfg m.adr j hj]
      simp

/-- A two-entry table whose two-bit patterns 0 and 1 leave the upper half
of the address space unmatched. -/
def cfgW3 : DecoderConfig := ⟨[⟨2, 0⟩, ⟨2, 1⟩], 0, false⟩

/-- A master driving an address (top two bits `11`) that matches no entry
of `cfgW3`. -/
def mWnm : M2S := ⟨0xC0000000, 0, 0, true, true, false, 0, 0⟩

theorem decoder_decode_correctness_witness :
    (slaveCycIn cfgW [] mW [] 0 = true ↔ mW.cyc = true) ∧
    slaveCycIn cfgW3 [] mWnm [] 0 = false ∧
    slaveCycIn cfgW3 [] mWnm [] 1 = false :=
  ⟨(decoder_decode_correctness cfgW [] mW []).1 0 (by decide) (by decide)
      (by decide),
   (decoder_decode_correctness cfgW3 [] mWnm []).2 (by decide) 0,
   (decoder_decode_correctness cfgW3 [] mWnm []).2 (by decide) 1⟩

/-- C4: in registered mode the `_slave_sel_r` read in cycle N+1 is the
`_slave_sel` decoded in cycle N; in combinational mode `_slave_sel_r`
equals `_slave_sel` in the same cycle.  In both modes the targets'
cycle-valid gating uses the current cycle's combinational `_slave_sel`
(all non-data outputs are independent of the register), while the
read-data multiplex is driven by `_slave_sel_r`. -/
theorem decoder_register_semantics (cfg : DecoderConfig) :
    (cfg.register = true → ∀ st m1 sl1 m2 sl2,
      (decoderStep cfg (decoderStep cfg st m1 sl1).2 m2 sl2).1.slaveSelR =
        slaveSel cfg m1.adr) ∧
    (cfg.register = false → ∀ st m sl,
      (decoderStep cfg st m sl).1.slaveSelR = slaveSel cfg m.adr) ∧
    (∀ st st2 m sl,
      (decoderStep cfg st m sl).1.slaveInputs =
        (decoderStep cfg st2 m sl).1.slaveInputs ∧
      (decoderStep cfg st m sl).1.masterAck =
        (decoderStep cfg st2 m sl).1.masterAck ∧
      (decoderStep cfg st m sl).1.masterErr =
        (decoderStep cfg st2 m sl).1.masterErr) ∧
    (∀ st m sl i, slaveCycIn cfg st m sl i =
      (m.cyc && (slaveSel cfg m.adr).getD i false)) ∧
    (∀ st m sl, (decoderStep cfg st m sl).1.masterDat =
      oneHotMux ((decoderStep cfg st m sl).1.slaveSelR) (sl.map S2M.dat)) := by
  refine ⟨?_, ?_, ?_, ?_, ?_⟩
  · intro hr st m1 sl1 m2 sl2
    simp [decoderStep, hr]
  · intro hr st m sl
    simp [decoderStep, hr]
  · intro st st2 m sl
    refine ⟨?_, ?_, ?_⟩ <;> simp [decoderStep]
  · intro st m sl i
    exact slaveCycIn_eq cfg st m sl i
  · intro st m sl
    cases hr : cfg.register <;> simp [decoderStep, hr]

theorem decoder_register_semantics_witness :
    (decoderStep cfgWreg
        (decoderStep cfgWreg [false, false] mW slWit).2 mWnm slWit).1.slaveSelR
      = slaveSel cfgWreg mW.adr ∧
    (decoderStep cfgW [] mW slWit).1.slaveSelR = slaveSel cfgW mW.adr :=
  ⟨(decoder_register_semantics cfgWreg).1 rfl [false, false] mW slWit mWnm
      slWit,
   (decoder_register_semantics cfgW).2.1 rfl [] mW slWit⟩

theorem getD_of_lt {α : Type} (l : List α) (d : α) (i : Nat)
    (h : i < l.length) : l.getD i d = l.get ⟨i, h⟩ := by
  rw [List.getD_eq_getElem?_getD, List.getElem?_eq_getElem h]
  rfl

theorem oneHotMux_single (selr : List Bool) (dats : List Nat) (t : Nat)
    (hlen : dats.length = selr.length) (ht : t < selr.length)
    (hsel : selr.get ⟨t, ht⟩ = true)
    (h0 : ∀ j (hj : j < selr.length), j ≠ t → selr.get ⟨j, hj⟩ = false) :
    oneHotMux selr dats = dats.get ⟨t, by omega⟩ % 2 ^ 32 := by
  have hzlen : (List.zipWith (fun s d => if s then d % 2 ^ 32 else 0)
      selr dats).length = selr.length := by
    simp [hlen]
  have hz : ∀ j (hj : j < (List.zipWith
      (fun s d => if s then d % 2 ^ 32 else 0) selr dats).length),
      j ≠ t → (List.zipWith (fun s d => if s then d % 2 ^ 32 else 0)
        selr dats).get ⟨j, hj⟩ = 0 := by
    intro j hj hne
    have hj2 : j < selr.length := by omega
    have hjz := h0 j hj2 hne
    simp only [List.get_eq_getElem] at hjz ⊢
    rw [List.getElem_zipWith]
    simp [hjz]
  have hres := foldl_lor_single _ t (by omega) hz
  unfold oneHotMux
  rw [hres]
  have hst := hsel
  simp only [List.get_eq_getElem] at hst ⊢
  rw [List.getElem_zipWith]
  simp [hst]

/-- One combinational evaluation of the full fabric
(`InterconnectShared.get_fragment` = arbiter fragment + decoder fragment)
at a given grant index: the trunk carries the granted master's forward
fields, the decoder routes them to the targets and ORs/muxes the targets'
responses back onto the trunk, and the arbiter delivers the trunk's
response to each initiator (ack/err gated by the grant).  Returns the
per-initiator responses, the per-target inputs, and the next value of the
decoder register. -/
def interconnectStep {n : Nat} (cfg : DecoderConfig) (st : List Bool)
    (masters : Fin n → M2S) (grant : Fin n) (slavesIn : List S2M) :
    (Fin n → S2M) × List M2S × List Bool :=
  let shared := arbiterTrunk masters grant
  let d := decoderStep cfg st shared slavesIn
  (fun i =>
    arbiterMasterResp ⟨d.1.masterDat, d.1.masterAck, d.1.masterErr⟩ grant i,
   d.1.slaveInputs, d.2)

theorem slaveSel_one_hot_get (cfg : DecoderConfig) (adr : Nat) (t : Nat)
    (ht : t < cfg.addresses.length)
    (hsel : (slaveSel cfg adr).getD t false = true)
    (hothers : ∀ j, j < cfg.addresses.length → j ≠ t →
      (slaveSel cfg adr).getD j false = false) :
    ∃ ht2 : t < (slaveSel cfg adr).length,
      (slaveSel cfg adr).get ⟨t, ht2⟩ = true ∧
      ∀ j (hj : j < (slaveSel cfg adr).length), j ≠ t →
        (slaveSel cfg adr).get ⟨j, hj⟩ = false := by
  have hlen := slaveSel_length cfg adr
  refine ⟨by omega, ?_, ?_⟩
  · rw [← getD_of_lt (slaveSel cfg adr) false t (by omega)]
    exact hsel
  · intro j hj hne
    rw [← getD_of_lt (slaveSel cfg adr) false j hj]
    exact hothers j (by omega) hne

/-- C5: if target `t` is the unique selected target and drives read data
`X`, the granted initiator observes read data `X` in the same cycle in
combinational mode, and exactly one cycle later in registered mode (the
register carrying the previous cycle's decode). -/
theorem roundtrip_data_integrity {n : Nat} (cfg : DecoderConfig)
    (t : Nat) (X : Nat) (hX : X < 2 ^ 32) :
    (cfg.register = false → ∀ st (masters : Fin n → M2S) grant slavesIn
      (hlen : slavesIn.length = cfg.addresses.length)
      (ht : t < cfg.addresses.length),
      (slaveSel cfg (masters grant).adr).getD t false = true →
      (∀ j, j < cfg.addresses.length → j ≠ t →
        (slaveSel cfg (masters grant).adr).getD j false = false) →
      (slavesIn.get ⟨t, by omega⟩).dat = X →
      ((interconnectStep cfg st masters grant slavesIn).1 grant).dat = X) ∧
    (cfg.register = true → ∀ st (masters1 masters2 : Fin n → M2S)
      grant1 grant2 slavesIn1 slavesIn2
      (hlen2 : slavesIn2.length = cfg.addresses.length)
      (ht : t < cfg.addresses.length),
      (slaveSel cfg (masters1 grant1).adr).getD t false = true →
      (∀ j, j < cfg.addresses.length → j ≠ t →
        (slaveSel cfg (masters1 grant1).adr).getD j false = false) →
      (slavesIn2.get ⟨t, by omega⟩).dat = X →
      ((interconnectStep cfg
          ((interconnectStep cfg st masters1 grant1 slavesIn1).2.2)
          masters2 grant2 slavesIn2).1 grant2).dat = X) := by
  constructor
  · intro hr st masters grant slavesIn hlen ht hsel hothers hdat
    obtain ⟨ht2, hg, h0⟩ := slaveSel_one_hot_get cfg (masters grant).adr t
      ht hsel hothers
    have hmlen : (slavesIn.map S2M.dat).length =
        (slaveSel cfg (masters grant).adr).length := by
      simp [slaveSel, hlen]
    have hmux := oneHotMux_single (slaveSel cfg (masters grant).adr)
      (slavesIn.map S2M.dat) t hmlen ht2 hg h0
    simp only [interconnectStep, arbiterTrunk, arbiterMasterResp,
      decoderStep, hr, if_neg Bool.false_ne_true]
    rw [hmux]
    simp only [List.get_eq_getElem, List.getElem_map] at hdat ⊢
    rw [hdat, Nat.mod_eq_of_lt hX]
  · intro hr st masters1 masters2 grant1 grant2 slavesIn1 slavesIn2
      hlen2 ht hsel hothers hdat
    obtain ⟨ht2, hg, h0⟩ := slaveSel_one_hot_get cfg (masters1 grant1).adr t
      ht hsel hothers
    have hst : (interconnectStep cfg st masters1 grant1 slavesIn1).2.2 =
        slaveSel cfg (masters1 grant1).adr := by
      simp [interconnectStep, arbiterTrunk, decoderStep, hr]
    have hmlen : (slavesIn2.map S2M.dat).length =
        (slaveSel cfg (masters1 grant1).adr).length := by
      simp [slaveSel, hlen2]
    have hmux := oneHotMux_single (slaveSel cfg (masters1 grant1).adr)
      (slavesIn2.map S2M.dat) t hmlen ht2 hg h0
    rw [hst]
    simp only [interconnectStep, arbiterTrunk, arbiterMasterResp,
      decoderStep, hr, if_pos]
    rw [hmux]
    simp only [List.get_eq_getElem, List.getElem_map] at hdat ⊢
    rw [hdat, Nat.mod_eq_of_lt hX]

theorem roundtrip_data_integrity_witness :
    ((interconnectStep cfgW [] (fun _ : Fin 2 => mW) 0 slWit).1 0).dat
      = 0xAB ∧
    ((interconnectStep cfgWreg
        ((interconnectStep cfgWreg [false, false]
          (fun _ : Fin 2 => mW) 0 slWit).2.2)
        (fun _ : Fin 2 => mW) 0 slWit).1 0).dat = 0xAB :=
  ⟨(roundtrip_data_integrity cfgW 0 0xAB (by decide)).1 rfl []
      (fun _ => mW) 0 slWit (by decide) (by decide) (by decide) (by decide)
      (by decide),
   (roundtrip_data_integrity cfgWreg 0 0xAB (by decide)).2 rfl
      [false, false] (fun _ => mW) (fun _ => mW) 0 0 slWit slWit
      (by decide) (by decide) (by decide) (by decide) (by decide)⟩

/-- C7: every initiator-to-target field of the shared trunk other than
cycle-valid takes the currently granted initiator's value, and the values
driven by ungranted initiators have no effect on the trunk. -/
theorem arbiter_forward_mux {n : Nat} (masters masters2 : Fin n → M2S)
    (grant : Fin n) :
    ((arbiterTrunk masters grant).adr = (masters grant).adr ∧
     (arbiterTrunk masters grant).dat = (masters grant).dat ∧
     (arbiterTrunk masters grant).sel = (masters grant).sel ∧
     (arbiterTrunk masters grant).stb = (masters grant).stb ∧
     (arbiterTrunk masters grant).we = (masters grant).we ∧
     (arbiterTrunk masters grant).cti = (masters grant).cti ∧
     (arbiterTrunk masters grant).bte = (masters grant).bte) ∧
    (masters grant = masters2 grant →
      arbiterTrunk masters grant = arbiterTrunk masters2 grant) :=
  ⟨⟨rfl, rfl, rfl, rfl, rfl, rfl, rfl⟩, fun h => h⟩

/-- Two initiator drive assignments that agree on initiator 0 but differ
on initiator 1. -/
def mastersA : Fin 2 → M2S := fun i => if i = 0 then mW else mWnm

/-- The second assignment: initiator 1 drives `mW` instead. -/
def mastersB : Fin 2 → M2S := fun i => if i = 0 then mW else mW

theorem arbiter_forward_mux_witness :
    (arbiterTrunk mastersA 0).adr = (mastersA 0).adr ∧
    arbiterTrunk mastersA 0 = arbiterTrunk mastersB 0 :=
  ⟨(arbiter_forward_mux mastersA mastersB 0).1.1,
   (arbiter_forward_mux mastersA mastersB 0).2 (by decide)⟩

/-- C8 counterexample: constructing a decoder whose two patterns both
match address high bit 0 raises no configuration error — construction
succeeds and returns a usable configuration (both entries match
address 0). -/
theorem decoder_init_accepts_overlap :
    decoderInit [Pattern.int 0, Pattern.int 0] 0 false =
      some ⟨[⟨1, 0⟩, ⟨1, 0⟩], 0, false⟩ ∧
    entryMatch 32 ⟨1, 0⟩ 0 = true := by
  exact ⟨by decide, by decide⟩

/-- C8 amended: `Decoder.__init__` performs no overlap validation —
construction succeeds on every nonempty address table, overlapping or
not; non-conflicting addresses are a documented caller obligation. -/
theorem decoder_init_total (ps : List Pattern) (offset : Nat)
    (register : Bool) (h : ps ≠ []) :
    ∃ cfg, decoderInit ps offset register = some cfg := by
  cases ps with
  | nil => exact absurd rfl h
  | cons p tl => exact ⟨_, rfl⟩

theorem decoder_init_total_witness :
    ∃ cfg, decoderInit [Pattern.int 0, Pattern.int 0] 0 false = some cfg :=
  decoder_init_total [Pattern.int 0, Pattern.int 0] 0 false (by decide)

/-- C10: every integer pattern in the table is widened at construction to
a constant of width `maxbits`, the maximum `bits_for` width over all the
table's patterns; consequently an integer entry's decode window is set by
the widest table entry, and adding a wider entry changes which addresses
the integer entry matches (address `0x90000000` matches the sole entry
`1` of a one-entry table, but no longer matches entry `1` once a
four-bit-wide constant entry is added). -/
theorem decoder_int_pattern_widening :
    (∀ ps offset register cfg,
      decoderInit ps offset register = some cfg →
      ∀ i (hi : i < ps.length) x, ps.get ⟨i, hi⟩ = Pattern.int x →
        cfg.addresses.getD i ⟨0, 0⟩ = ⟨maxbitsOf ps, x⟩) ∧
    (decoderInit [Pattern.int 1] 0 false).map
        (fun c => slaveSel c 0x90000000) = some [true] ∧
    (decoderInit [Pattern.int 1, Pattern.const ⟨4, 2⟩] 0 false).map
        (fun c => slaveSel c 0x90000000) = some [false, false] := by
  refine ⟨?_, by decide, by decide⟩
  intro ps offset register cfg hinit i hi x hx
  cases ps with
  | nil => simp [decoderInit] at hinit
  | cons p tl =>
    have hcfg : (⟨(p :: tl).map (mkconst (maxbitsOf (p :: tl))),
        offset, register⟩ : DecoderConfig) = cfg := by
      simpa [decoderInit] using hinit
    rw [← hcfg]
    have hi2 : i < ((p :: tl).map (mkconst (maxbitsOf (p :: tl)))).length := by
      simpa using hi
    rw [getD_of_lt _ _ i hi2]
    simp only [List.get_eq_getElem, List.getElem_map]
    have hpi : (p :: tl)[i] = Pattern.int x := by
      simpa [List.get_eq_getElem] using hx
    rw [hpi]
    rfl

theorem decoder_int_pattern_widening_witness :
    (decoderInit [Pattern.int 5, Pattern.const ⟨4, 2⟩] 0 false =
      some ⟨[⟨4, 5⟩, ⟨4, 2⟩], 0, false⟩) ∧
    ((⟨[⟨4, 5⟩, ⟨4, 2⟩], 0, false⟩ : DecoderConfig).addresses.getD 0 ⟨0, 0⟩ =
      ⟨maxbitsOf [Pattern.int 5, Pattern.const ⟨4, 2⟩], 5⟩) :=
  ⟨by decide,
   decoder_int_pattern_widening.1 [Pattern.int 5, Pattern.const ⟨4, 2⟩]
     0 false ⟨[⟨4, 5⟩, ⟨4, 2⟩], 0, false⟩ (by decide) 0 (by decide) 5
     (by decide)⟩

theorem rrScan_all_true {n : Nat} (req : Fin n → Bool) (prev : Fin n)
    (h : ∀ i, req i = true) :
    rrScan req prev = ⟨(prev.val + 1) % n, Nat.mod_lt _ prev.pos⟩ := by
  have hn : 0 < n := prev.pos
  have hfind : (List.range n).find?
      (fun k => req ⟨(prev.val + k + 1) % n, Nat.mod_lt _ hn⟩) = some 0 := by
    obtain ⟨m, hm⟩ : ∃ m, n = m + 1 := ⟨n - 1, by omega⟩
    subst hm
    rw [List.range_succ_eq_map]
    rw [List.find?_cons_of_pos]
    exact h _
  simp [rrScan, hfind]

theorem grantSeq_all_true {n : Nat} (req : Nat → Fin n → Bool)
    (g0 : Fin n) (h : ∀ t i, req t i = true) (t : Nat) :
    (grantSeq req g0 t).val = (g0.val + t) % n := by
  induction t with
  | zero =>
    simp [grantSeq, Nat.mod_eq_of_lt g0.isLt]
  | succ t ih =>
    have hs := rrScan_all_true (req t) (grantSeq req g0 t) (h t)
    show (rrScan (req t) (grantSeq req g0 t)).val = (g0.val + (t + 1)) % n
    rw [hs]
    show ((grantSeq req g0 t).val + 1) % n = (g0.val + (t + 1)) % n
    rw [ih, Nat.mod_add_mod, Nat.add_assoc]

/-- C9: with every initiator holding cycle-valid continuously asserted —
so the arbiter's request vector, which is the vector of the initiators'
`cyc_o` bits, is all-ones — every initiator is granted at least once
within any `n` consecutive cycles of the round-robin grant trajectory. -/
theorem arbiter_round_robin_fairness {n : Nat}
    (ms : Nat → Fin n → M2S) (g0 : Fin n)
    (hcyc : ∀ t i, (ms t i).cyc = true) (t : Nat) (i : Fin n) :
    ∃ k, k < n ∧
      grantSeq (fun u => arbiterRequest (ms u)) g0 (t + k) = i := by
  have hreq : ∀ u j, arbiterRequest (ms u) j = true := fun u j => hcyc u j
  have hn : 0 < n := i.pos
  refine ⟨(i.val + n - (g0.val + t) % n) % n, Nat.mod_lt _ hn, ?_⟩
  apply Fin.ext
  rw [grantSeq_all_true _ g0 hreq]
  rw [← Nat.add_assoc]
  rw [← Nat.mod_add_mod (g0.val + t)]
  rw [Nat.add_mod_mod]
  have ha : (g0.val + t) % n < n := Nat.mod_lt _ hn
  have hsum : (g0.val + t) % n + (i.val + n - (g0.val + t) % n) =
      i.val + n := by omega
  rw [hsum, Nat.add_mod_right]
  exact Nat.mod_eq_of_lt i.isLt

/-- All initiators continuously driving `mW` (cycle-valid high). -/
def msAll : Nat → Fin 2 → M2S := fun _ _ => mW

theorem arbiter_round_robin_fairness_witness :
    ∃ k, k < 2 ∧
      grantSeq (fun u => arbiterRequest (msAll u)) 0 (0 + k) = 1 :=
  arbiter_round_robin_fairness msAll 0 (fun _ _ => rfl) 0 1
